import Mathlib

/-!
Verification of the concurrent hash table in `hashtable/hashtable.go`,
embedded as a sequential (quiescent) functional model.  Machine integers
are modelled by `Nat`/`Int`; the FNV-1a hash works modulo `2 ^ 32`
exactly as `hash/fnv` does.  Keys are any type with decidable equality,
and the Go expression `fmt.Sprintf("%v", key)` is abstracted as a
function `fmtK : K → List Nat` giving the byte sequence of the formatted
key.  The load-factor comparison `float64(size)/float64(bucketSize) > 0.75`
is exact for the integer operands involved and is rendered as
`4 * size > 3 * bucketSize` over `Int`.
-/

set_option linter.unusedSectionVars false
set_option linter.unnecessarySimpa false
set_option linter.unnecessarySeqFocus false

namespace hashtable

/-- The FNV-1a 32-bit offset basis, from `hash/fnv`. -/
def fnvOffset : Nat := 2166136261

/-- The FNV-1a 32-bit prime, from `hash/fnv`. -/
def fnvPrime : Nat := 16777619

/-- FNV-1a over a byte list: `h = (h XOR b) * prime mod 2^32` for each byte,
starting from the offset basis.  Models `fnv.New32a(); h.Write(bytes); h.Sum32()`. -/
def fnv32a (bytes : List Nat) : Nat :=
  bytes.foldl (fun h b => ((h ^^^ b) * fnvPrime) % 4294967296) fnvOffset

/-- The `entry` struct: a key-value pair stored in a bucket. -/
structure entry (K V : Type) where
  key : K
  value : V
deriving DecidableEq

/-- The `HashTable` struct.  A bucket is its entry slice (the per-bucket
mutex has no sequential content); `size` is the atomic `int64` counter and
`bucketSize` the bucket count.  The `resizing` flag and the `RWMutex` are
represented by the sequential semantics of `tryResize` below. -/
structure HashTable (K V : Type) where
  buckets : List (List (entry K V))
  size : Int
  bucketSize : Nat
deriving DecidableEq

/-- Replace the element at index `i` (no-op when out of range). -/
def modifyIdx {α : Type} (f : α → α) : Nat → List α → List α
  | _, [] => []
  | 0, a :: as => f a :: as
  | n + 1, a :: as => a :: modifyIdx f n as

variable {K V : Type} [DecidableEq K]

/-- The `New` constructor: a non-positive requested size falls back to 16,
and every bucket starts as an empty entry slice. -/
def New (K V : Type) (initialSize : Int) : HashTable K V :=
  let n : Nat := if initialSize < 1 then 16 else initialSize.toNat
  { buckets := List.replicate n [], size := 0, bucketSize := n }

/-- The bucket index of a key for a given bucket count:
`int(fnv32a(fmt(key))) % bucketSize`.  On a 64-bit platform the conversion
of the `uint32` sum to `int` is non-negative, so Go `%` agrees with `Nat`
modulus. -/
def hashIndex (fmtK : K → List Nat) (bucketSize : Nat) (key : K) : Nat :=
  fnv32a (fmtK key) % bucketSize

variable (fmtK : K → List Nat)

/-- The `hash` method: reads `ht.bucketSize` (under the read lock) and
reduces the FNV-1a sum modulo it. -/
def hash (ht : HashTable K V) (key : K) : Nat :=
  hashIndex fmtK ht.bucketSize key

/-- The linear scan `entries[i].key == key` used by Put/Get/Delete. -/
def keyScan (key : K) (b : List (entry K V)) : Bool :=
  b.any (fun e => decide (e.key = key))

/-- The update branch of `Put`: overwrite the value of the first entry
whose key matches, leaving the key field and all other entries intact. -/
def bucketReplace (key : K) (value : V) : List (entry K V) → List (entry K V)
  | [] => []
  | e :: es =>
    if e.key = key then { key := e.key, value := value } :: es
    else e :: bucketReplace key value es

/-- The delete scan: drop the first entry whose key matches
(`append(entries[:i], entries[i+1:]...)`). -/
def bucketRemove (key : K) : List (entry K V) → List (entry K V)
  | [] => []
  | e :: es => if e.key = key then es else e :: bucketRemove key es

/-- Entry redistribution inside `tryResize`: iterate all entries of the old
buckets in order and append each to `newBuckets[fnv32a(fmt(key)) % newSize]`. -/
def distribute (n : Nat) (es : List (entry K V)) : List (List (entry K V)) :=
  es.foldl (fun bs e => modifyIdx (fun b => b ++ [e]) (hashIndex fmtK n e.key) bs)
    (List.replicate n [])

/-- The migration body of `tryResize`, after the load-factor recheck passed:
double the bucket count and rehash every entry under the new count. -/
def resizeTable (ht : HashTable K V) : HashTable K V :=
  let newSize := ht.bucketSize * 2
  { buckets := distribute fmtK newSize ht.buckets.flatten
    size := ht.size
    bucketSize := newSize }

/-- The `tryResize` method under sequential execution: the
compare-and-swap on `resizing` succeeds, the load factor is rechecked
(`size/bucketSize <= 0.75` returns early), and otherwise the migration runs. -/
def tryResize (ht : HashTable K V) : HashTable K V :=
  if 4 * ht.size > 3 * (ht.bucketSize : Int) then resizeTable fmtK ht else ht

/-- The state of the insert branch of `Put` after appending the new entry
to the target bucket (under the bucket lock) and incrementing the size
counter, before the load-factor check. -/
def insertStep (ht : HashTable K V) (key : K) (value : V) : HashTable K V :=
  { ht with
    buckets := modifyIdx (fun bk => bk ++ [{ key := key, value := value }])
      (hash fmtK ht key) ht.buckets
    size := ht.size + 1 }

/-- The `Put` method under sequential execution (the bounds-check retry
loop always passes on its first iteration when `len(buckets) = bucketSize`):
update in place when the key is present, otherwise append the new entry,
bump the size counter (`insertStep`), and run the load-factor check
`float64(newSize)/float64(ht.bucketSize) > 0.75` before calling `tryResize`. -/
def Put (ht : HashTable K V) (key : K) (value : V) : HashTable K V :=
  if keyScan key (ht.buckets.getD (hash fmtK ht key) []) then
    { ht with buckets := modifyIdx (bucketReplace key value) (hash fmtK ht key) ht.buckets }
  else
    if 4 * (ht.size + 1) > 3 * (ht.bucketSize : Int)
    then tryResize fmtK (insertStep fmtK ht key value)
    else insertStep fmtK ht key value

/-- The `Get` method under sequential execution: scan the target bucket and
return the first matching value, or the zero value `z` of `V` with `false`. -/
def Get (z : V) (ht : HashTable K V) (key : K) : V × Bool :=
  match (ht.buckets.getD (hash fmtK ht key) []).find? (fun e => decide (e.key = key)) with
  | some e => (e.value, true)
  | none => (z, false)

/-- The `Delete` method under sequential execution: drop the first matching
entry and decrement the size counter, or report `false` when absent. -/
def Delete (ht : HashTable K V) (key : K) : HashTable K V × Bool :=
  if keyScan key (ht.buckets.getD (hash fmtK ht key) []) then
    ({ ht with buckets := modifyIdx (bucketRemove key) (hash fmtK ht key) ht.buckets
               size := ht.size - 1 }, true)
  else (ht, false)

/-- The `Size` method: the atomic counter value. -/
def Size (ht : HashTable K V) : Int := ht.size

/-- A mutating operation of the public interface. -/
inductive Op (K V : Type) where
  | put (key : K) (value : V)
  | del (key : K)

/-- Apply one operation to the table. -/
def applyOp (ht : HashTable K V) : Op K V → HashTable K V
  | .put k v => Put fmtK ht k v
  | .del k => (Delete fmtK ht k).1

/-- Run a sequence of operations to quiescence. -/
def runOps (ops : List (Op K V)) (ht : HashTable K V) : HashTable K V :=
  ops.foldl (applyOp fmtK) ht

/-- All keys currently stored, across all buckets in order. -/
def allKeys (ht : HashTable K V) : List K :=
  ht.buckets.flatten.map entry.key

/-- Well-formedness of a quiescent table state: the slice length matches
the bucket count, the count is positive, every entry sits in the bucket
its key hashes to, no key is stored twice, and the size counter equals
the number of stored entries. -/
structure WF (ht : HashTable K V) : Prop where
  len_eq : ht.buckets.length = ht.bucketSize
  pos : 0 < ht.bucketSize
  placed : ∀ i : Nat, ∀ e ∈ ht.buckets.getD i [], hashIndex fmtK ht.bucketSize e.key = i
  nodupKeys : (allKeys ht).Nodup
  size_eq : ht.size = (ht.buckets.flatten.length : Int)

/-! Basic lemmas about `modifyIdx` and list plumbing. -/

theorem length_modifyIdx {α : Type} (f : α → α) (i : Nat) (l : List α) :
    (modifyIdx f i l).length = l.length := by
  induction l generalizing i with
  | nil => cases i <;> rfl
  | cons a as ih =>
    cases i with
    | zero => rfl
    | succ n => simpa [modifyIdx] using ih n

theorem getD_cons_zero' {α : Type} (a : α) (as : List α) (d : α) :
    (a :: as).getD 0 d = a := rfl

theorem getD_cons_succ' {α : Type} (a : α) (as : List α) (n : Nat) (d : α) :
    (a :: as).getD (n + 1) d = as.getD n d := rfl

theorem modifyIdx_eq_take_drop {α : Type} (f : α → α) (i : Nat) (l : List α) (d : α)
    (h : i < l.length) :
    modifyIdx f i l = l.take i ++ f (l.getD i d) :: l.drop (i + 1) := by
  induction l generalizing i with
  | nil => exact absurd h (by simp)
  | cons a as ih =>
    cases i with
    | zero => simp [modifyIdx]
    | succ n =>
      have hn : n < as.length := by simpa using h
      simp [modifyIdx, ih n hn, getD_cons_succ']

theorem self_eq_take_drop {α : Type} (i : Nat) (l : List α) (d : α) (h : i < l.length) :
    l = l.take i ++ l.getD i d :: l.drop (i + 1) := by
  induction l generalizing i with
  | nil => exact absurd h (by simp)
  | cons a as ih =>
    cases i with
    | zero => simp
    | succ n =>
      have hn : n < as.length := by simpa using h
      simpa [getD_cons_succ'] using congrArg (a :: ·) (ih n hn)

theorem getD_modifyIdx_self {α : Type} (f : α → α) (i : Nat) (l : List α) (d : α)
    (h : i < l.length) :
    (modifyIdx f i l).getD i d = f (l.getD i d) := by
  induction l generalizing i with
  | nil => exact absurd h (by simp)
  | cons a as ih =>
    cases i with
    | zero => rfl
    | succ n =>
      have hn : n < as.length := by simpa using h
      simpa [modifyIdx, getD_cons_succ'] using ih n hn

theorem getD_modifyIdx_ne {α : Type} (f : α → α) {i j : Nat} (l : List α) (d : α)
    (h : i ≠ j) :
    (modifyIdx f i l).getD j d = l.getD j d := by
  induction l generalizing i j with
  | nil => cases i <;> rfl
  | cons a as ih =>
    cases i with
    | zero =>
      cases j with
      | zero => exact absurd rfl h
      | succ m => rfl
    | succ n =>
      cases j with
      | zero => rfl
      | succ m =>
        have : n ≠ m := fun hc => h (by simp [hc])
        simpa [modifyIdx, getD_cons_succ'] using ih this

theorem getD_replicate_nil {α : Type} (n i : Nat) :
    (List.replicate n ([] : List α)).getD i [] = [] := by
  induction n generalizing i with
  | zero => rfl
  | succ m ih =>
    cases i with
    | zero => rfl
    | succ j => simp [List.replicate_succ, getD_cons_succ', ih j]

theorem flatten_replicate_nil {α : Type} (n : Nat) :
    (List.replicate n ([] : List α)).flatten = [] := by
  induction n with
  | zero => rfl
  | succ m ih => simp [List.replicate_succ, ih]

/-! Lemmas about the hash index and single-bucket scans. -/

theorem hashIndex_lt (fmtK : K → List Nat) (n : Nat) (k : K) (h : 0 < n) :
    hashIndex fmtK n k < n :=
  Nat.mod_lt _ h

theorem keyScan_eq_true {k : K} {b : List (entry K V)} :
    keyScan k b = true ↔ ∃ e ∈ b, e.key = k := by
  simp [keyScan]

theorem keyScan_eq_false {k : K} {b : List (entry K V)} :
    keyScan k b = false ↔ ∀ e ∈ b, e.key ≠ k := by
  simp [keyScan]

theorem find?_isSome_eq_keyScan (k : K) (b : List (entry K V)) :
    (b.find? (fun e => decide (e.key = k))).isSome = keyScan k b := by
  induction b with
  | nil => rfl
  | cons e es ih =>
    by_cases h : e.key = k <;> simp [List.find?, keyScan, h] <;>
      simpa [keyScan] using ih

theorem map_key_bucketReplace (k : K) (v : V) (b : List (entry K V)) :
    (bucketReplace k v b).map entry.key = b.map entry.key := by
  induction b with
  | nil => rfl
  | cons e es ih =>
    by_cases h : e.key = k <;> simp [bucketReplace, h, ih]

theorem length_bucketReplace (k : K) (v : V) (b : List (entry K V)) :
    (bucketReplace k v b).length = b.length := by
  simpa using congrArg List.length (map_key_bucketReplace k v b)

theorem find?_bucketReplace_self {k : K} {v : V} {b : List (entry K V)}
    (h : keyScan k b = true) :
    (bucketReplace k v b).find? (fun e => decide (e.key = k)) =
      some { key := k, value := v } := by
  induction b with
  | nil => simp [keyScan] at h
  | cons e es ih =>
    by_cases hk : e.key = k
    · simp [bucketReplace, hk, List.find?]
    · have h2 : keyScan k es = true := by
        rcases keyScan_eq_true.1 h with ⟨e2, he2, hkey⟩
        rcases List.mem_cons.1 he2 with h0 | htail
        · exact absurd (h0 ▸ hkey) hk
        · exact keyScan_eq_true.2 ⟨e2, htail, hkey⟩
      simpa [bucketReplace, hk, List.find?] using ih h2

theorem find?_bucketReplace_ne {k2 k : K} (v : V) (b : List (entry K V)) (h : k2 ≠ k) :
    (bucketReplace k v b).find? (fun e => decide (e.key = k2)) =
      b.find? (fun e => decide (e.key = k2)) := by
  induction b with
  | nil => rfl
  | cons e es ih =>
    have hkk : ¬ k = k2 := fun hc => h hc.symm
    by_cases hk : e.key = k
    · simp [bucketReplace, hk, List.find?, hkk]
    · by_cases h2 : e.key = k2 <;> simp [bucketReplace, hk, List.find?, h2, h, ih]

theorem bucketRemove_sublist (k : K) (b : List (entry K V)) :
    (bucketRemove k b).Sublist b := by
  induction b with
  | nil => exact List.Sublist.refl _
  | cons e es ih =>
    by_cases hk : e.key = k
    · simpa [bucketRemove, hk] using ih.cons e
    · simpa [bucketRemove, hk] using ih.cons₂ e

theorem length_bucketRemove {k : K} {b : List (entry K V)} (h : keyScan k b = true) :
    (bucketRemove k b).length + 1 = b.length := by
  induction b with
  | nil => simp [keyScan] at h
  | cons e es ih =>
    by_cases hk : e.key = k
    · simp [bucketRemove, hk]
    · have h2 : keyScan k es = true := by
        rcases keyScan_eq_true.1 h with ⟨e2, he2, hkey⟩
        rcases List.mem_cons.1 he2 with h0 | htail
        · exact absurd (h0 ▸ hkey) hk
        · exact keyScan_eq_true.2 ⟨e2, htail, hkey⟩
      simpa [bucketRemove, hk] using ih h2

theorem find?_bucketRemove_self {k : K} {b : List (entry K V)}
    (h : (b.map entry.key).Nodup) :
    (bucketRemove k b).find? (fun e => decide (e.key = k)) = none := by
  induction b with
  | nil => rfl
  | cons e es ih =>
    rw [List.map_cons, List.nodup_cons] at h
    by_cases hk : e.key = k
    · simp only [bucketRemove, if_pos hk]
      refine List.find?_eq_none.2 fun e2 he2 => ?_
      have hne : ¬ e2.key = e.key := fun hc => h.1 (List.mem_map.2 ⟨e2, he2, hc⟩)
      simp [← hk, hne]
    · simpa [bucketRemove, hk, List.find?] using ih h.2

theorem find?_bucketRemove_ne {k2 k : K} (b : List (entry K V)) (h : k2 ≠ k) :
    (bucketRemove k b).find? (fun e => decide (e.key = k2)) =
      b.find? (fun e => decide (e.key = k2)) := by
  induction b with
  | nil => rfl
  | cons e es ih =>
    have hkk : ¬ k = k2 := fun hc => h hc.symm
    by_cases hk : e.key = k
    · simp [bucketRemove, hk, List.find?, hkk]
    · by_cases h2 : e.key = k2 <;> simp [bucketRemove, hk, List.find?, h2, h, ih]

theorem find?_append_new_self {k : K} {v : V} {b : List (entry K V)}
    (h : keyScan k b = false) :
    (b ++ [({ key := k, value := v } : entry K V)]).find? (fun e => decide (e.key = k)) =
      some ({ key := k, value := v } : entry K V) := by
  have hb : b.find? (fun e => decide (e.key = k)) = none :=
    List.find?_eq_none.2 fun e he => by simp [keyScan_eq_false.1 h e he]
  rw [List.find?_append, hb]
  simp [List.find?]

theorem find?_append_new_ne {k2 k : K} (v : V) (b : List (entry K V)) (h : k2 ≠ k) :
    (b ++ [({ key := k, value := v } : entry K V)]).find? (fun e => decide (e.key = k2)) =
      b.find? (fun e => decide (e.key = k2)) := by
  rw [List.find?_append]
  cases hb : b.find? (fun e => decide (e.key = k2)) with
  | some e => rfl
  | none =>
    have hkk : ¬ k = k2 := fun hc => h hc.symm
    simp [List.find?, hkk]

/-! Lemmas locating a key inside the flattened bucket array. -/

theorem mem_flatten_iff_getD {e : entry K V} {bs : List (List (entry K V))} :
    e ∈ bs.flatten ↔ ∃ i : Nat, e ∈ bs.getD i [] := by
  constructor
  · intro h
    rcases List.mem_flatten.1 h with ⟨l, hl, hel⟩
    rcases List.mem_iff_getElem.1 hl with ⟨i, hi, rfl⟩
    exact ⟨i, by rwa [List.getD_eq_getElem _ _ hi]⟩
  · rintro ⟨i, hi⟩
    by_cases h : i < bs.length
    · rw [List.getD_eq_getElem _ _ h] at hi
      exact List.mem_flatten.2 ⟨bs[i], List.getElem_mem h, hi⟩
    · rw [List.getD_eq_default _ _ (le_of_not_lt h)] at hi
      cases hi

theorem find?_flatten_of_placed (k : K) :
    ∀ (bs : List (List (entry K V))) (j : Nat),
      (∀ i : Nat, ∀ e ∈ bs.getD i [], e.key = k → i = j) →
      bs.flatten.find? (fun e => decide (e.key = k)) =
        (bs.getD j []).find? (fun e => decide (e.key = k))
  | [], j, _ => by cases j <;> rfl
  | b :: bs, 0, hp => by
    have htail : bs.flatten.find? (fun e => decide (e.key = k)) = none := by
      refine List.find?_eq_none.2 fun e he => ?_
      rcases mem_flatten_iff_getD.1 he with ⟨i, hi⟩
      intro hc
      exact Nat.succ_ne_zero i (hp (i + 1) e hi (by simpa using hc))
    simp [List.flatten_cons, List.find?_append, htail, getD_cons_zero']
  | b :: bs, j + 1, hp => by
    have hhead : b.find? (fun e => decide (e.key = k)) = none := by
      refine List.find?_eq_none.2 fun e he => ?_
      intro hc
      exact Nat.succ_ne_zero j (hp 0 e he (by simpa using hc)).symm
    have ih := find?_flatten_of_placed k bs j
      (fun i e hi hc => Nat.succ_injective (hp (i + 1) e hi hc))
    simp [List.flatten_cons, List.find?_append, hhead, getD_cons_succ', ih]

theorem mem_allKeys_iff {ht : HashTable K V} (hwf : WF fmtK ht) (k : K) :
    k ∈ allKeys ht ↔
      keyScan k (ht.buckets.getD (hashIndex fmtK ht.bucketSize k) []) = true := by
  have hplace : ∀ i : Nat, ∀ e ∈ ht.buckets.getD i [], e.key = k →
      i = hashIndex fmtK ht.bucketSize k := by
    intro i e hi hc
    rw [← hwf.placed i e hi, hc]
  have hfind := find?_flatten_of_placed k ht.buckets
    (hashIndex fmtK ht.bucketSize k) hplace
  have hmem : k ∈ allKeys ht ↔
      (ht.buckets.flatten.find? (fun e => decide (e.key = k))).isSome = true := by
    rw [List.find?_isSome]
    simp only [allKeys, List.mem_map, List.mem_flatten, decide_eq_true_eq]
  rw [hmem, hfind, find?_isSome_eq_keyScan]

/-! Lemmas about the resize redistribution loop. -/

theorem distribute_length (n : Nat) (es : List (entry K V)) :
    (distribute fmtK n es).length = n := by
  suffices h : ∀ bs : List (List (entry K V)),
      (es.foldl (fun bs e => modifyIdx (fun b => b ++ [e]) (hashIndex fmtK n e.key) bs)
        bs).length = bs.length by
    simpa [distribute] using h (List.replicate n [])
  intro bs
  induction es generalizing bs with
  | nil => rfl
  | cons e es ih =>
    rw [List.foldl_cons, ih, length_modifyIdx]

theorem getD_distribute (n : Nat) (hn : 0 < n) (es : List (entry K V)) (j : Nat) :
    (distribute fmtK n es).getD j [] =
      es.filter (fun e => decide (hashIndex fmtK n e.key = j)) := by
  suffices h : ∀ bs : List (List (entry K V)), bs.length = n →
      (es.foldl (fun bs e => modifyIdx (fun b => b ++ [e]) (hashIndex fmtK n e.key) bs)
          bs).getD j [] =
        bs.getD j [] ++ es.filter (fun e => decide (hashIndex fmtK n e.key = j)) by
    simpa [distribute, getD_replicate_nil] using
      h (List.replicate n []) (List.length_replicate n [])
  intro bs hlen
  induction es generalizing bs with
  | nil => simp
  | cons e es ih =>
    rw [List.foldl_cons, ih _ (by rw [length_modifyIdx]; exact hlen)]
    by_cases hj : hashIndex fmtK n e.key = j
    · subst hj
      rw [getD_modifyIdx_self _ _ _ _ (by rw [hlen]; exact hashIndex_lt fmtK n e.key hn)]
      simp [List.filter_cons]
    · rw [getD_modifyIdx_ne _ _ _ hj]
      simp [List.filter_cons, hj]

theorem flatten_distribute_perm (n : Nat) (hn : 0 < n) (es : List (entry K V)) :
    (distribute fmtK n es).flatten.Perm es := by
  suffices h : ∀ bs : List (List (entry K V)), bs.length = n →
      (es.foldl (fun bs e => modifyIdx (fun b => b ++ [e]) (hashIndex fmtK n e.key) bs)
          bs).flatten.Perm (bs.flatten ++ es) by
    simpa [distribute, flatten_replicate_nil] using
      h (List.replicate n []) (List.length_replicate n [])
  intro bs hlen
  induction es generalizing bs with
  | nil => simp
  | cons e es ih =>
    rw [List.foldl_cons]
    have hidx : hashIndex fmtK n e.key < bs.length := by
      rw [hlen]; exact hashIndex_lt fmtK n e.key hn
    have hmod : (modifyIdx (fun b => b ++ [e]) (hashIndex fmtK n e.key) bs).flatten.Perm
        (bs.flatten ++ [e]) := by
      rw [modifyIdx_eq_take_drop _ _ _ [] hidx]
      conv_rhs => rw [self_eq_take_drop (hashIndex fmtK n e.key) bs [] hidx]
      simp only [List.flatten_append, List.flatten_cons, List.append_assoc]
      exact List.Perm.append_left _ (List.Perm.append_left _ List.perm_append_comm)
    have step := ih (modifyIdx (fun b => b ++ [e]) (hashIndex fmtK n e.key) bs)
      (by rw [length_modifyIdx]; exact hlen)
    refine step.trans ?_
    refine (hmod.append_right es).trans ?_
    simp [List.append_assoc]

/-! Lemmas about `resizeTable` and `tryResize`. -/

theorem resizeTable_bucketSize (ht : HashTable K V) :
    (resizeTable fmtK ht).bucketSize = ht.bucketSize * 2 := rfl

theorem resizeTable_size (ht : HashTable K V) :
    (resizeTable fmtK ht).size = ht.size := rfl

theorem WF_resizeTable {ht : HashTable K V} (hwf : WF fmtK ht) :
    WF fmtK (resizeTable fmtK ht) := by
  have hn : 0 < ht.bucketSize * 2 := Nat.mul_pos hwf.pos (by norm_num)
  have hperm := flatten_distribute_perm fmtK (ht.bucketSize * 2) hn ht.buckets.flatten
  refine ⟨?_, ?_, ?_, ?_, ?_⟩
  · exact distribute_length fmtK _ _
  · exact hn
  · intro i e he
    rw [resizeTable, getD_distribute fmtK _ hn] at he
    exact of_decide_eq_true (List.mem_filter.1 he).2
  · have : (allKeys (resizeTable fmtK ht)).Perm (allKeys ht) := hperm.map entry.key
    exact this.symm.nodup hwf.nodupKeys
  · rw [resizeTable_size, hwf.size_eq]
    exact congrArg _ hperm.length_eq.symm

theorem WF_tryResize {ht : HashTable K V} (hwf : WF fmtK ht) :
    WF fmtK (tryResize fmtK ht) := by
  unfold tryResize
  split
  · exact WF_resizeTable fmtK hwf
  · exact hwf

theorem tryResize_size (ht : HashTable K V) :
    (tryResize fmtK ht).size = ht.size := by
  unfold tryResize
  split <;> rfl

/-! The abstract lookup function and its behaviour under each operation. -/

/-- The value stored for a key, if any: the first matching entry of the
target bucket. -/
def lookupVal (ht : HashTable K V) (k : K) : Option V :=
  ((ht.buckets.getD (hash fmtK ht k) []).find? (fun e => decide (e.key = k))).map entry.value

theorem Get_eq_lookupVal (z : V) (ht : HashTable K V) (k : K) :
    Get fmtK z ht k = ((lookupVal fmtK ht k).getD z, (lookupVal fmtK ht k).isSome) := by
  unfold Get lookupVal
  cases h : (ht.buckets.getD (hash fmtK ht k) []).find? (fun e => decide (e.key = k)) <;>
    simp [h]

theorem find?_filter_key (k : K) (p : entry K V → Bool) (es : List (entry K V))
    (hp : ∀ e : entry K V, e.key = k → p e = true) :
    (es.filter p).find? (fun e => decide (e.key = k)) =
      es.find? (fun e => decide (e.key = k)) := by
  induction es with
  | nil => rfl
  | cons e es ih =>
    by_cases hk : e.key = k
    · rw [List.filter_cons, if_pos (hp e hk)]
      simp [List.find?, hk]
    · by_cases hpe : p e <;> simp [List.filter_cons, hpe, List.find?, hk, ih]

theorem lookupVal_resizeTable {ht : HashTable K V} (hwf : WF fmtK ht) (k : K) :
    lookupVal fmtK (resizeTable fmtK ht) k = lookupVal fmtK ht k := by
  have hn : 0 < ht.bucketSize * 2 := Nat.mul_pos hwf.pos (by norm_num)
  have hplace : ∀ i : Nat, ∀ e ∈ ht.buckets.getD i [], e.key = k →
      i = hashIndex fmtK ht.bucketSize k := by
    intro i e hi hc
    rw [← hwf.placed i e hi, hc]
  unfold lookupVal
  rw [show hash fmtK (resizeTable fmtK ht) k = hashIndex fmtK (ht.bucketSize * 2) k from rfl]
  rw [show (resizeTable fmtK ht).buckets = distribute fmtK (ht.bucketSize * 2) ht.buckets.flatten
      from rfl]
  rw [getD_distribute fmtK _ hn]
  rw [find?_filter_key k _ _ (fun e he => by rw [he]; simp)]
  rw [find?_flatten_of_placed k ht.buckets (hashIndex fmtK ht.bucketSize k) hplace]
  rfl

theorem lookupVal_tryResize {ht : HashTable K V} (hwf : WF fmtK ht) (k : K) :
    lookupVal fmtK (tryResize fmtK ht) k = lookupVal fmtK ht k := by
  unfold tryResize
  split
  · exact lookupVal_resizeTable fmtK hwf k
  · rfl

/-! Decomposition of the flattened table at one bucket. -/

theorem flatten_modifyIdx {α : Type} (f : List α → List α) (i : Nat)
    (bs : List (List α)) (h : i < bs.length) :
    (modifyIdx f i bs).flatten =
      (bs.take i).flatten ++ (f (bs.getD i []) ++ (bs.drop (i + 1)).flatten) := by
  rw [modifyIdx_eq_take_drop _ _ _ [] h]
  simp [List.flatten_append, List.flatten_cons]

theorem flatten_eq_take_drop {α : Type} (i : Nat) (bs : List (List α)) (h : i < bs.length) :
    bs.flatten = (bs.take i).flatten ++ (bs.getD i [] ++ (bs.drop (i + 1)).flatten) := by
  conv_lhs => rw [self_eq_take_drop i bs [] h]
  simp [List.flatten_append, List.flatten_cons]

theorem length_flatten_eq_allKeys (ht : HashTable K V) :
    ht.buckets.flatten.length = (allKeys ht).length := by
  unfold allKeys
  rw [List.length_map]

theorem hash_lt {ht : HashTable K V} (hwf : WF fmtK ht) (k : K) :
    hash fmtK ht k < ht.buckets.length := by
  rw [hwf.len_eq]; exact hashIndex_lt fmtK _ k hwf.pos

theorem allKeys_decomp (ht : HashTable K V) (i : Nat) (h : i < ht.buckets.length) :
    allKeys ht = ((ht.buckets.take i).flatten.map entry.key) ++
      (((ht.buckets.getD i []).map entry.key) ++
        ((ht.buckets.drop (i + 1)).flatten.map entry.key)) := by
  unfold allKeys
  rw [flatten_eq_take_drop i ht.buckets h]
  simp [List.map_append]

theorem bucket_keys_nodup {ht : HashTable K V} (hwf : WF fmtK ht) (i : Nat) :
    ((ht.buckets.getD i []).map entry.key).Nodup := by
  by_cases h : i < ht.buckets.length
  · have hsub : ((ht.buckets.getD i []).map entry.key).Sublist (allKeys ht) := by
      rw [allKeys_decomp ht i h]
      exact (List.sublist_append_left _ _).trans (List.sublist_append_right _ _)
    exact hwf.nodupKeys.sublist hsub
  · rw [List.getD_eq_default _ _ (le_of_not_lt h)]
    simp

theorem notMem_allKeys_of_scan {ht : HashTable K V} (hwf : WF fmtK ht) {k : K}
    (hscan : keyScan k (ht.buckets.getD (hash fmtK ht k) []) = false) :
    k ∉ allKeys ht := by
  intro hmem
  rw [mem_allKeys_iff fmtK hwf] at hmem
  rw [hash] at hscan
  rw [hmem] at hscan
  cases hscan

/-! The two branches of Put. -/

theorem Put_update_eq {ht : HashTable K V} {k : K} (v : V)
    (hscan : keyScan k (ht.buckets.getD (hash fmtK ht k) []) = true) :
    Put fmtK ht k v =
      { ht with buckets := modifyIdx (bucketReplace k v) (hash fmtK ht k) ht.buckets } := by
  unfold Put
  rw [if_pos hscan]

theorem Put_insert_eq {ht : HashTable K V} {k : K} (v : V)
    (hscan : keyScan k (ht.buckets.getD (hash fmtK ht k) []) = false) :
    Put fmtK ht k v =
      if 4 * (ht.size + 1) > 3 * (ht.bucketSize : Int)
      then tryResize fmtK (insertStep fmtK ht k v) else insertStep fmtK ht k v := by
  unfold Put
  rw [if_neg (fun hc => by rw [hscan] at hc; cases hc)]

theorem key_mem_of_mem_bucketReplace {k : K} {v : V} {b : List (entry K V)}
    {e : entry K V} (he : e ∈ bucketReplace k v b) : e.key ∈ b.map entry.key := by
  rw [← map_key_bucketReplace k v b]
  exact List.mem_map_of_mem entry.key he

theorem allKeys_Put_update {ht : HashTable K V} (hwf : WF fmtK ht) {k : K} (v : V)
    (hscan : keyScan k (ht.buckets.getD (hash fmtK ht k) []) = true) :
    allKeys (Put fmtK ht k v) = allKeys ht := by
  rw [Put_update_eq fmtK v hscan]
  show (modifyIdx (bucketReplace k v) (hash fmtK ht k) ht.buckets).flatten.map entry.key
    = allKeys ht
  rw [flatten_modifyIdx _ _ _ (hash_lt fmtK hwf k)]
  rw [allKeys_decomp ht (hash fmtK ht k) (hash_lt fmtK hwf k)]
  simp [List.map_append, map_key_bucketReplace]

theorem WF_Put_update {ht : HashTable K V} (hwf : WF fmtK ht) {k : K} (v : V)
    (hscan : keyScan k (ht.buckets.getD (hash fmtK ht k) []) = true) :
    WF fmtK (Put fmtK ht k v) := by
  have hak := allKeys_Put_update fmtK hwf v hscan
  rw [Put_update_eq fmtK v hscan] at hak ⊢
  refine ⟨?_, hwf.pos, ?_, ?_, ?_⟩
  · simpa [length_modifyIdx] using hwf.len_eq
  · intro j e he
    by_cases hij : hash fmtK ht k = j
    · subst hij
      rw [getD_modifyIdx_self _ _ _ _ (hash_lt fmtK hwf k)] at he
      rcases List.mem_map.1 (key_mem_of_mem_bucketReplace he) with ⟨e2, he2, hkey⟩
      rw [← hkey]
      exact hwf.placed _ e2 he2
    · rw [getD_modifyIdx_ne _ _ _ hij] at he
      exact hwf.placed j e he
  · rw [show allKeys { ht with
        buckets := modifyIdx (bucketReplace k v) (hash fmtK ht k) ht.buckets } = allKeys ht
      from hak]
    exact hwf.nodupKeys
  · show ht.size = _
    rw [length_flatten_eq_allKeys, hak, ← length_flatten_eq_allKeys]
    exact hwf.size_eq

theorem allKeys_insertStep_perm {ht : HashTable K V} (hwf : WF fmtK ht) (k : K) (v : V) :
    (allKeys (insertStep fmtK ht k v)).Perm (k :: allKeys ht) := by
  have hi : hash fmtK ht k < ht.buckets.length := hash_lt fmtK hwf k
  show ((modifyIdx (fun bk => bk ++ [{ key := k, value := v }])
      (hash fmtK ht k) ht.buckets).flatten.map entry.key).Perm (k :: allKeys ht)
  rw [flatten_modifyIdx _ _ _ hi]
  rw [allKeys_decomp ht (hash fmtK ht k) hi]
  simp only [List.map_append, List.map_cons, List.map_nil, List.append_assoc,
    List.cons_append, List.nil_append, List.singleton_append]
  rw [← List.append_assoc]
  exact List.perm_middle.trans (by rw [List.append_assoc])

theorem WF_insertStep {ht : HashTable K V} (hwf : WF fmtK ht) {k : K} (v : V)
    (hscan : keyScan k (ht.buckets.getD (hash fmtK ht k) []) = false) :
    WF fmtK (insertStep fmtK ht k v) := by
  have hi : hash fmtK ht k < ht.buckets.length := hash_lt fmtK hwf k
  have hkmem : k ∉ allKeys ht := notMem_allKeys_of_scan fmtK hwf hscan
  have hperm := allKeys_insertStep_perm fmtK hwf k v
  refine ⟨?_, hwf.pos, ?_, ?_, ?_⟩
  · simpa [insertStep, length_modifyIdx] using hwf.len_eq
  · intro j e he
    by_cases hij : hash fmtK ht k = j
    · subst hij
      rw [show (insertStep fmtK ht k v).buckets =
          modifyIdx (fun bk => bk ++ [{ key := k, value := v }])
            (hash fmtK ht k) ht.buckets from rfl] at he
      rw [getD_modifyIdx_self _ _ _ _ hi] at he
      rcases List.mem_append.1 he with h1 | h2
      · exact hwf.placed _ e h1
      · rw [List.mem_singleton.1 h2]
        rfl
    · rw [show (insertStep fmtK ht k v).buckets =
          modifyIdx (fun bk => bk ++ [{ key := k, value := v }])
            (hash fmtK ht k) ht.buckets from rfl] at he
      rw [getD_modifyIdx_ne _ _ _ hij] at he
      exact hwf.placed j e he
  · exact hperm.symm.nodup (List.nodup_cons.2 ⟨hkmem, hwf.nodupKeys⟩)
  · show ht.size + 1 = _
    rw [length_flatten_eq_allKeys, hperm.length_eq, List.length_cons,
      hwf.size_eq, length_flatten_eq_allKeys]
    push_cast
    ring

theorem WF_Put {ht : HashTable K V} (hwf : WF fmtK ht) (k : K) (v : V) :
    WF fmtK (Put fmtK ht k v) := by
  by_cases hscan : keyScan k (ht.buckets.getD (hash fmtK ht k) []) = true
  · exact WF_Put_update fmtK hwf v hscan
  · have hs := eq_false_of_ne_true hscan
    rw [Put_insert_eq fmtK v hs]
    split
    · exact WF_tryResize fmtK (WF_insertStep fmtK hwf v hs)
    · exact WF_insertStep fmtK hwf v hs

/-! The two branches of Delete. -/

theorem Delete_not_found_eq {ht : HashTable K V} {k : K}
    (hscan : keyScan k (ht.buckets.getD (hash fmtK ht k) []) = false) :
    Delete fmtK ht k = (ht, false) := by
  unfold Delete
  rw [if_neg (fun hc => by rw [hscan] at hc; cases hc)]

theorem Delete_found_eq {ht : HashTable K V} {k : K}
    (hscan : keyScan k (ht.buckets.getD (hash fmtK ht k) []) = true) :
    Delete fmtK ht k =
      ({ ht with buckets := modifyIdx (bucketRemove k) (hash fmtK ht k) ht.buckets
                 size := ht.size - 1 }, true) := by
  unfold Delete
  rw [if_pos hscan]

theorem WF_Delete {ht : HashTable K V} (hwf : WF fmtK ht) (k : K) :
    WF fmtK (Delete fmtK ht k).1 := by
  by_cases hscan : keyScan k (ht.buckets.getD (hash fmtK ht k) []) = true
  · rw [Delete_found_eq fmtK hscan]
    have hi := hash_lt fmtK hwf k
    refine ⟨?_, hwf.pos, ?_, ?_, ?_⟩
    · simpa [length_modifyIdx] using hwf.len_eq
    · intro j e he
      by_cases hij : hash fmtK ht k = j
      · subst hij
        rw [getD_modifyIdx_self _ _ _ _ hi] at he
        exact hwf.placed _ e ((bucketRemove_sublist k _).subset he)
      · rw [getD_modifyIdx_ne _ _ _ hij] at he
        exact hwf.placed j e he
    · have hsub : (allKeys { ht with
          buckets := modifyIdx (bucketRemove k) (hash fmtK ht k) ht.buckets
          size := ht.size - 1 }).Sublist (allKeys ht) := by
        show ((modifyIdx (bucketRemove k) (hash fmtK ht k) ht.buckets).flatten.map
          entry.key).Sublist (allKeys ht)
        rw [flatten_modifyIdx _ _ _ hi, allKeys_decomp ht (hash fmtK ht k) hi]
        simp only [List.map_append]
        exact (List.Sublist.refl _).append
          (((bucketRemove_sublist k _).map entry.key).append (List.Sublist.refl _))
      exact hwf.nodupKeys.sublist hsub
    · have hlen : ((modifyIdx (bucketRemove k) (hash fmtK ht k) ht.buckets).flatten).length + 1
          = ht.buckets.flatten.length := by
        rw [flatten_modifyIdx _ _ _ hi]
        conv_rhs => rw [flatten_eq_take_drop (hash fmtK ht k) ht.buckets hi]
        have hrem := length_bucketRemove (k := k)
          (b := ht.buckets.getD (hash fmtK ht k) []) hscan
        simp only [List.length_append]
        omega
      show ht.size - 1 =
        (((modifyIdx (bucketRemove k) (hash fmtK ht k) ht.buckets).flatten).length : Int)
      rw [hwf.size_eq]
      omega
  · rw [Delete_not_found_eq fmtK (eq_false_of_ne_true hscan)]
    exact hwf

/-! Behaviour of `lookupVal` under each operation. -/

theorem lookupVal_isSome_eq_keyScan (ht : HashTable K V) (k : K) :
    (lookupVal fmtK ht k).isSome =
      keyScan k (ht.buckets.getD (hash fmtK ht k) []) := by
  unfold lookupVal
  rw [← find?_isSome_eq_keyScan k (ht.buckets.getD (hash fmtK ht k) [])]
  cases (ht.buckets.getD (hash fmtK ht k) []).find? (fun e => decide (e.key = k)) <;> rfl

theorem lookupVal_eq_none_iff {ht : HashTable K V} (hwf : WF fmtK ht) (k : K) :
    lookupVal fmtK ht k = none ↔ k ∉ allKeys ht := by
  rw [mem_allKeys_iff fmtK hwf k]
  have h := lookupVal_isSome_eq_keyScan fmtK ht k
  rw [hash] at h
  rw [← h]
  cases hl : lookupVal fmtK ht k <;> simp [hl]

theorem lookupVal_insertStep_self {ht : HashTable K V} (hwf : WF fmtK ht) {k : K} (v : V)
    (hscan : keyScan k (ht.buckets.getD (hash fmtK ht k) []) = false) :
    lookupVal fmtK (insertStep fmtK ht k v) k = some v := by
  show (((modifyIdx (fun bk => bk ++ [{ key := k, value := v }])
      (hash fmtK ht k) ht.buckets).getD (hash fmtK ht k) []).find?
        (fun e => decide (e.key = k))).map entry.value = some v
  rw [getD_modifyIdx_self _ _ _ _ (hash_lt fmtK hwf k)]
  rw [find?_append_new_self hscan]
  rfl

theorem lookupVal_insertStep_ne {ht : HashTable K V} (hwf : WF fmtK ht) {k2 k : K}
    (hne : k2 ≠ k) (v : V) :
    lookupVal fmtK (insertStep fmtK ht k v) k2 = lookupVal fmtK ht k2 := by
  show (((modifyIdx (fun bk => bk ++ [{ key := k, value := v }])
      (hash fmtK ht k) ht.buckets).getD (hash fmtK ht k2) []).find?
        (fun e => decide (e.key = k2))).map entry.value = lookupVal fmtK ht k2
  by_cases hij : hash fmtK ht k = hash fmtK ht k2
  · rw [← hij, getD_modifyIdx_self _ _ _ _ (hash_lt fmtK hwf k)]
    rw [find?_append_new_ne v _ hne]
    rw [lookupVal, hij]
  · rw [getD_modifyIdx_ne _ _ _ hij]
    rfl

theorem lookupVal_Put_self {ht : HashTable K V} (hwf : WF fmtK ht) (k : K) (v : V) :
    lookupVal fmtK (Put fmtK ht k v) k = some v := by
  by_cases hscan : keyScan k (ht.buckets.getD (hash fmtK ht k) []) = true
  · rw [Put_update_eq fmtK v hscan]
    show (((modifyIdx (bucketReplace k v) (hash fmtK ht k) ht.buckets).getD
        (hash fmtK ht k) []).find? (fun e => decide (e.key = k))).map entry.value = some v
    rw [getD_modifyIdx_self _ _ _ _ (hash_lt fmtK hwf k)]
    rw [find?_bucketReplace_self hscan]
    rfl
  · have hs := eq_false_of_ne_true hscan
    rw [Put_insert_eq fmtK v hs]
    split
    · rw [lookupVal_tryResize fmtK (WF_insertStep fmtK hwf v hs)]
      exact lookupVal_insertStep_self fmtK hwf v hs
    · exact lookupVal_insertStep_self fmtK hwf v hs

theorem lookupVal_Put_ne {ht : HashTable K V} (hwf : WF fmtK ht) {k2 k : K}
    (hne : k2 ≠ k) (v : V) :
    lookupVal fmtK (Put fmtK ht k v) k2 = lookupVal fmtK ht k2 := by
  by_cases hscan : keyScan k (ht.buckets.getD (hash fmtK ht k) []) = true
  · rw [Put_update_eq fmtK v hscan]
    show (((modifyIdx (bucketReplace k v) (hash fmtK ht k) ht.buckets).getD
        (hash fmtK ht k2) []).find? (fun e => decide (e.key = k2))).map entry.value
      = lookupVal fmtK ht k2
    by_cases hij : hash fmtK ht k = hash fmtK ht k2
    · rw [← hij, getD_modifyIdx_self _ _ _ _ (hash_lt fmtK hwf k)]
      rw [find?_bucketReplace_ne v _ hne]
      rw [lookupVal, hij]
    · rw [getD_modifyIdx_ne _ _ _ hij]
      rfl
  · have hs := eq_false_of_ne_true hscan
    rw [Put_insert_eq fmtK v hs]
    split
    · rw [lookupVal_tryResize fmtK (WF_insertStep fmtK hwf v hs)]
      exact lookupVal_insertStep_ne fmtK hwf hne v
    · exact lookupVal_insertStep_ne fmtK hwf hne v

theorem lookupVal_Delete_self {ht : HashTable K V} (hwf : WF fmtK ht) (k : K) :
    lookupVal fmtK (Delete fmtK ht k).1 k = none := by
  by_cases hscan : keyScan k (ht.buckets.getD (hash fmtK ht k) []) = true
  · rw [Delete_found_eq fmtK hscan]
    show (((modifyIdx (bucketRemove k) (hash fmtK ht k) ht.buckets).getD
        (hash fmtK ht k) []).find? (fun e => decide (e.key = k))).map entry.value = none
    rw [getD_modifyIdx_self _ _ _ _ (hash_lt fmtK hwf k)]
    rw [find?_bucketRemove_self (bucket_keys_nodup fmtK hwf (hash fmtK ht k))]
    rfl
  · have hs := eq_false_of_ne_true hscan
    rw [Delete_not_found_eq fmtK hs]
    show lookupVal fmtK ht k = none
    rw [lookupVal_eq_none_iff fmtK hwf k]
    exact notMem_allKeys_of_scan fmtK hwf hs

theorem lookupVal_Delete_ne {ht : HashTable K V} (hwf : WF fmtK ht) {k2 k : K}
    (hne : k2 ≠ k) :
    lookupVal fmtK (Delete fmtK ht k).1 k2 = lookupVal fmtK ht k2 := by
  by_cases hscan : keyScan k (ht.buckets.getD (hash fmtK ht k) []) = true
  · rw [Delete_found_eq fmtK hscan]
    show (((modifyIdx (bucketRemove k) (hash fmtK ht k) ht.buckets).getD
        (hash fmtK ht k2) []).find? (fun e => decide (e.key = k2))).map entry.value
      = lookupVal fmtK ht k2
    by_cases hij : hash fmtK ht k = hash fmtK ht k2
    · rw [← hij, getD_modifyIdx_self _ _ _ _ (hash_lt fmtK hwf k)]
      rw [find?_bucketRemove_ne _ hne]
      rw [lookupVal, hij]
    · rw [getD_modifyIdx_ne _ _ _ hij]
      rfl
  · rw [Delete_not_found_eq fmtK (eq_false_of_ne_true hscan)]

/-! Size counter and bucket count under each operation. -/

theorem Put_size {ht : HashTable K V} (k : K) (v : V) :
    (Put fmtK ht k v).size =
      if keyScan k (ht.buckets.getD (hash fmtK ht k) []) then ht.size else ht.size + 1 := by
  by_cases hscan : keyScan k (ht.buckets.getD (hash fmtK ht k) []) = true
  · rw [Put_update_eq fmtK v hscan, if_pos hscan]
  · have hs := eq_false_of_ne_true hscan
    rw [Put_insert_eq fmtK v hs, hs]
    simp only [Bool.false_eq_true, if_false]
    split
    · exact (tryResize_size fmtK _).trans rfl
    · rfl

theorem Put_bucketSize_update {ht : HashTable K V} {k : K} (v : V)
    (hscan : keyScan k (ht.buckets.getD (hash fmtK ht k) []) = true) :
    (Put fmtK ht k v).bucketSize = ht.bucketSize := by
  rw [Put_update_eq fmtK v hscan]

theorem Put_bucketSize_insert {ht : HashTable K V} {k : K} (v : V)
    (hscan : keyScan k (ht.buckets.getD (hash fmtK ht k) []) = false) :
    (Put fmtK ht k v).bucketSize =
      if 4 * (ht.size + 1) > 3 * (ht.bucketSize : Int)
      then 2 * ht.bucketSize else ht.bucketSize := by
  rw [Put_insert_eq fmtK v hscan]
  by_cases hcond : 4 * (ht.size + 1) > 3 * (ht.bucketSize : Int)
  · rw [if_pos hcond, if_pos hcond]
    unfold tryResize
    rw [if_pos (show 4 * (insertStep fmtK ht k v).size >
        3 * ((insertStep fmtK ht k v).bucketSize : Int) from hcond)]
    show ht.bucketSize * 2 = 2 * ht.bucketSize
    ring
  · rw [if_neg hcond, if_neg hcond]
    rfl

theorem Delete_snd (ht : HashTable K V) (k : K) :
    (Delete fmtK ht k).2 = keyScan k (ht.buckets.getD (hash fmtK ht k) []) := by
  unfold Delete
  split
  · next h => rw [h]
  · next h => rw [eq_false_of_ne_true h]

theorem Delete_size (ht : HashTable K V) (k : K) :
    (Delete fmtK ht k).1.size =
      if (Delete fmtK ht k).2 then ht.size - 1 else ht.size := by
  unfold Delete
  split <;> rfl

theorem Delete_bucketSize (ht : HashTable K V) (k : K) :
    (Delete fmtK ht k).1.bucketSize = ht.bucketSize := by
  unfold Delete
  split <;> rfl

/-! Construction and operation sequences preserve well-formedness. -/

theorem New_bucketSize (n : Int) :
    (New K V n).bucketSize = if n < 1 then 16 else n.toNat := rfl

theorem WF_New (n : Int) : WF fmtK (New K V n) := by
  refine ⟨?_, ?_, ?_, ?_, ?_⟩
  · show (List.replicate (if n < 1 then 16 else n.toNat) ([] : List (entry K V))).length = _
    rw [List.length_replicate]
    rfl
  · show 0 < (if n < 1 then 16 else n.toNat)
    split
    · norm_num
    · next h => omega
  · intro i e he
    rw [show (New K V n).buckets =
        List.replicate (if n < 1 then 16 else n.toNat) ([] : List (entry K V)) from rfl] at he
    rw [getD_replicate_nil] at he
    cases he
  · show ((New K V n).buckets.flatten.map entry.key).Nodup
    rw [show (New K V n).buckets =
        List.replicate (if n < 1 then 16 else n.toNat) ([] : List (entry K V)) from rfl]
    rw [flatten_replicate_nil]
    simp
  · show (0 : Int) = _
    rw [show (New K V n).buckets =
        List.replicate (if n < 1 then 16 else n.toNat) ([] : List (entry K V)) from rfl]
    rw [flatten_replicate_nil]
    rfl

theorem WF_applyOp {ht : HashTable K V} (hwf : WF fmtK ht) (op : Op K V) :
    WF fmtK (applyOp fmtK ht op) := by
  cases op with
  | put k v => exact WF_Put fmtK hwf k v
  | del k => exact WF_Delete fmtK hwf k

theorem WF_runOps (ops : List (Op K V)) :
    ∀ {ht : HashTable K V}, WF fmtK ht → WF fmtK (runOps fmtK ops ht) := by
  induction ops with
  | nil => intro ht h; exact h
  | cons op ops ih =>
    intro ht h
    rw [runOps, List.foldl_cons]
    exact ih (WF_applyOp fmtK h op)

/-! The net effect of an operation history on a single key. -/

/-- The pending effect of an operation sequence on one key: `some (some v)`
when the last operation touching the key was a Put of `v` (the key ends up
present with value `v`), `some none` when it was a Delete (the key ends up
absent), and `none` when no operation touched the key at all. -/
def lastAction (ops : List (Op K V)) (k : K) : Option (Option V) :=
  ops.foldl (fun acc op =>
    match op with
    | .put k2 v => if k2 = k then some (some v) else acc
    | .del k2 => if k2 = k then some none else acc) none

theorem lastAction_foldl_init (k : K) (ops : List (Op K V)) :
    ∀ init : Option (Option V),
      ops.foldl (fun acc op =>
        match op with
        | .put k2 v => if k2 = k then some (some v) else acc
        | .del k2 => if k2 = k then some none else acc) init =
      (match lastAction ops k with
       | some r => some r
       | none => init) := by
  induction ops with
  | nil => intro init; rfl
  | cons op ops ih =>
    intro init
    have hLA : lastAction (op :: ops) k =
        (match lastAction ops k with
         | some r => some r
         | none => (match op with
                    | .put k2 v => if k2 = k then some (some v) else none
                    | .del k2 => if k2 = k then some none else none)) := by
      show ops.foldl _ _ = _
      rw [ih]
    rw [List.foldl_cons, ih, hLA]
    cases hL : lastAction ops k with
    | some r => rfl
    | none =>
      cases op with
      | put k2 v => by_cases h : k2 = k <;> simp [h]
      | del k2 => by_cases h : k2 = k <;> simp [h]

theorem lastAction_cons (k : K) (op : Op K V) (ops : List (Op K V)) :
    lastAction (op :: ops) k =
      (match lastAction ops k with
       | some r => some r
       | none => (match op with
                  | .put k2 v => if k2 = k then some (some v) else none
                  | .del k2 => if k2 = k then some none else none)) := by
  show ops.foldl _ _ = _
  rw [lastAction_foldl_init]

/-- Running an operation sequence from any well-formed state leaves each
key holding exactly what the history's last effective action dictates. -/
theorem lookupVal_runOps (ops : List (Op K V)) :
    ∀ {ht : HashTable K V}, WF fmtK ht → ∀ k : K,
      lookupVal fmtK (runOps fmtK ops ht) k =
        (match lastAction ops k with
         | some r => r
         | none => lookupVal fmtK ht k) := by
  induction ops with
  | nil => intro ht hwf k; rfl
  | cons op ops ih =>
    intro ht hwf k
    rw [runOps, List.foldl_cons]
    rw [show List.foldl (applyOp fmtK) (applyOp fmtK ht op) ops
        = runOps fmtK ops (applyOp fmtK ht op) from rfl]
    rw [ih (WF_applyOp fmtK hwf op) k]
    rw [lastAction_cons]
    cases hL : lastAction ops k with
    | some r => rfl
    | none =>
      cases op with
      | put k2 v =>
        by_cases h : k2 = k
        · subst h
          simp [applyOp, lookupVal_Put_self fmtK hwf]
        · simp only [applyOp, if_neg h]
          rw [lookupVal_Put_ne fmtK hwf (fun hc => h hc.symm) v]
      | del k2 =>
        by_cases h : k2 = k
        · subst h
          simp [applyOp, lookupVal_Delete_self fmtK hwf]
        · simp only [applyOp, if_neg h]
          rw [lookupVal_Delete_ne fmtK hwf (fun hc => h hc.symm)]

/-! Final helpers used by the claim theorems. -/

theorem Get_eq_of_lookupVal_some {ht : HashTable K V} {k : K} {v : V} (z : V)
    (h : lookupVal fmtK ht k = some v) :
    Get fmtK z ht k = (v, true) := by
  rw [Get_eq_lookupVal, h]
  rfl

theorem Get_eq_of_lookupVal_none {ht : HashTable K V} {k : K} (z : V)
    (h : lookupVal fmtK ht k = none) :
    Get fmtK z ht k = (z, false) := by
  rw [Get_eq_lookupVal, h]
  rfl

theorem keyScan_eq_false_of_notMem {ht : HashTable K V} (hwf : WF fmtK ht) {k : K}
    (h : k ∉ allKeys ht) :
    keyScan k (ht.buckets.getD (hash fmtK ht k) []) = false :=
  eq_false_of_ne_true fun hc => h ((mem_allKeys_iff fmtK hwf k).2 hc)

theorem lookupVal_eq_some_of_mem {ht : HashTable K V} (hwf : WF fmtK ht) {k : K}
    (h : k ∈ allKeys ht) : ∃ v : V, lookupVal fmtK ht k = some v := by
  cases hl : lookupVal fmtK ht k with
  | none => exact absurd h ((lookupVal_eq_none_iff fmtK hwf k).1 hl)
  | some v => exact ⟨v, rfl⟩

theorem map_modifyIdx_eq {α β : Type} (f : α → α) (g : α → β) (i : Nat) (l : List α)
    (h : ∀ a : α, g (f a) = g a) :
    (modifyIdx f i l).map g = l.map g := by
  induction l generalizing i with
  | nil => cases i <;> rfl
  | cons a as ih =>
    cases i with
    | zero => simp [modifyIdx, h]
    | succ n => simp [modifyIdx, ih]

theorem allKeys_New (n : Int) : allKeys (New K V n) = [] := by
  rw [allKeys, show (New K V n).buckets =
      List.replicate (if n < 1 then 16 else n.toNat) ([] : List (entry K V)) from rfl]
  rw [flatten_replicate_nil]
  rfl

/-! Concrete instantiations used by the scenario claims. -/

/-- The byte sequence `fmt.Sprintf("%v", n)` produces for an integer key:
the ASCII bytes of its decimal representation. -/
def natFmt (n : Nat) : List Nat := (toString n).data.map Char.toNat

/-- The byte sequence `fmt.Sprintf("%v", s)` produces for a string key:
its character codes. -/
def strFmt (s : String) : List Nat := s.data.map Char.toNat

/-- Scenario A of the spec: construct with initial bucket count 4 and Put
integer keys 0..9 with string values "v0".."v9" sequentially. -/
def scenarioA : HashTable Nat String :=
  runOps natFmt ((List.range 10).map (fun i => Op.put i ("v" ++ toString i)))
    (New Nat String 4)

/-- Scenario B of the spec: Put("a",1) then Put("a",2) on a fresh
default-sized table. -/
def scenarioB : HashTable String Int :=
  Put strFmt (Put strFmt (New String Int 16) "a" 1) "a" 2

/-! Claim theorems. -/

/-- C1: for every sequence of Put and Delete operations executed to
quiescence on a table constructed with any initial bucket count, the stored
keys are pairwise distinct, `Size` returns exactly their number, and a key
is stored precisely when its operation history nets out to an insert (its
last effective operation is a Put never matched by a later Delete, i.e. its
inserts outnumber its successful deletes), so `Size` returns exactly the
number of distinct keys currently present. -/
theorem C1_size_counts_present_keys (fmtK : K → List Nat) (ops : List (Op K V)) (n : Int) :
    (allKeys (runOps fmtK ops (New K V n))).Nodup ∧
    Size (runOps fmtK ops (New K V n)) =
      ((allKeys (runOps fmtK ops (New K V n))).length : Int) ∧
    (∀ k : K, k ∈ allKeys (runOps fmtK ops (New K V n)) ↔
      ∃ v : V, lastAction ops k = some (some v)) := by
  have hwf := WF_runOps fmtK ops (WF_New fmtK n)
  refine ⟨hwf.nodupKeys, ?_, ?_⟩
  · rw [Size, hwf.size_eq, length_flatten_eq_allKeys]
  · intro k
    have hrun := lookupVal_runOps fmtK ops (WF_New fmtK n) k
    have hnew : lookupVal fmtK (New K V n) k = none := by
      rw [lookupVal_eq_none_iff fmtK (WF_New fmtK n) k, allKeys_New]
      simp
    constructor
    · intro hk
      rcases lookupVal_eq_some_of_mem fmtK hwf hk with ⟨v, hv⟩
      rw [hrun] at hv
      cases hL : lastAction ops k with
      | none =>
        rw [hL, hnew] at hv
        cases hv
      | some r =>
        cases r with
        | none => rw [hL] at hv; cases hv
        | some w => exact ⟨w, rfl⟩
    · rintro ⟨v, hL⟩
      by_contra hk
      have hnone := (lookupVal_eq_none_iff fmtK hwf k).2 hk
      rw [hrun, hL] at hnone
      cases hnone

/-- C2: a resize preserves the abstract key-value map - `Get` after
`resizeTable` (the migration) or `tryResize` agrees with `Get` before -
and consequently after any operation sequence, with however many resizes
it triggered, every key whose final effective operation was `Put v` is
retrieved as `(v, true)`. -/
theorem C2_resize_preserves_map (fmtK : K → List Nat) (z : V) :
    (∀ ht : HashTable K V, WF fmtK ht → ∀ k : K,
      Get fmtK z (resizeTable fmtK ht) k = Get fmtK z ht k ∧
      Get fmtK z (tryResize fmtK ht) k = Get fmtK z ht k) ∧
    (∀ (ops : List (Op K V)) (n : Int) (k : K) (v : V),
      lastAction ops k = some (some v) →
      Get fmtK z (runOps fmtK ops (New K V n)) k = (v, true)) := by
  constructor
  · intro ht hwf k
    constructor
    · rw [Get_eq_lookupVal, Get_eq_lookupVal, lookupVal_resizeTable fmtK hwf k]
    · rw [Get_eq_lookupVal, Get_eq_lookupVal, lookupVal_tryResize fmtK hwf k]
  · intro ops n k v hlast
    have hrun := lookupVal_runOps fmtK ops (WF_New fmtK n) k
    rw [hlast] at hrun
    exact Get_eq_of_lookupVal_some fmtK z hrun

/-- Witness for C2: a concrete run with two Puts to key 1 retrieves the
last value, and a migration on a concrete well-formed table preserves Get. -/
theorem C2_witness :
    Get natFmt "" (runOps natFmt [Op.put 1 "a", Op.put 1 "b"] (New Nat String 4)) 1
      = ("b", true) ∧
    Get natFmt "" (resizeTable natFmt (New Nat String 4)) 0
      = Get natFmt "" (New Nat String 4) 0 :=
  ⟨(C2_resize_preserves_map natFmt "").2 [Op.put 1 "a", Op.put 1 "b"] 4 1 "b" (by decide),
   ((C2_resize_preserves_map natFmt "").1 (New Nat String 4) (WF_New natFmt 4) 0).1⟩

/-! Lock-event model of the operation control flow, for the concurrency
discipline of spec section 5.  The event lists are read directly off the
straight-line control flow of the source. -/

/-- Lock and control events of the hash-table implementation. -/
inductive LockEvent where
  | acquireShared
  | releaseShared
  | readBucketCount
  | computeIndex
  | boundsRetryCheck
  | acquireBucket
  | bucketOperation
  | releaseBucket
deriving DecidableEq

/-- Events of the `hash` method in source order: `ht.mu.RLock()`, read
`ht.bucketSize`, `ht.mu.RUnlock()`, then reduce the sum modulo the count. -/
def hashEvents : List LockEvent :=
  [.acquireShared, .readBucketCount, .releaseShared, .computeIndex]

/-- Events of one iteration of the retry loop of `Put`: the `hash` call
(which acquires and releases the shared coordinator lock internally), the
staleness check `index >= len(ht.buckets)` that retries via `continue`,
then `bucket.mu.Lock()`, the scan or mutation, and `bucket.mu.Unlock()`. -/
def putLoopEvents : List LockEvent :=
  hashEvents ++ [.boundsRetryCheck, .acquireBucket, .bucketOperation, .releaseBucket]

/-- Events of one iteration of the retry loop of `Get`, same shape as Put
with the bucket lock taken in read mode. -/
def getLoopEvents : List LockEvent :=
  hashEvents ++ [.boundsRetryCheck, .acquireBucket, .bucketOperation, .releaseBucket]

/-- Events of one iteration of the retry loop of `Delete`, same shape as Put. -/
def deleteLoopEvents : List LockEvent :=
  hashEvents ++ [.boundsRetryCheck, .acquireBucket, .bucketOperation, .releaseBucket]

/-- Modelled from the spec: the acquisition order section 5 requires of
every Put/Get/Delete - the shared coordinator access is held across the
index computation and the whole bucket operation and released only at the
end, with no retry loop on a stale bucket index. -/
def specLockOrder : List LockEvent :=
  [.acquireShared, .readBucketCount, .computeIndex, .acquireBucket,
   .bucketOperation, .releaseBucket, .releaseShared]

/-- C3 counterexample: the claimed discipline - the bucket lock is released
before the shared coordinator access (so the shared access is held across
the whole bucket operation) and no operation contains a retry check - is
false of the implementation already for `Put`: in `putLoopEvents` the
shared access is released at position 2, before the bucket lock ever
appears, and the bounds-based retry check is present. -/
theorem C3_claim_counterexample :
    ¬(putLoopEvents.indexOf LockEvent.releaseBucket <
        putLoopEvents.indexOf LockEvent.releaseShared ∧
      LockEvent.boundsRetryCheck ∉ putLoopEvents) := by
  decide

/-- C3 amended: the implementation does not follow the claimed lock discipline: in
every one of Put, Get and Delete the shared coordinator access is released
(inside `hash`) strictly before the bucket lock is acquired, each
operation contains the bounds-based retry check, and none of the three
event sequences equals the order the specification requires (which would
release the shared access last and have no retry check). -/
theorem C3_lock_order_divergence :
    (putLoopEvents ≠ specLockOrder ∧ getLoopEvents ≠ specLockOrder ∧
      deleteLoopEvents ≠ specLockOrder) ∧
    (putLoopEvents.indexOf LockEvent.releaseShared <
        putLoopEvents.indexOf LockEvent.acquireBucket ∧
      getLoopEvents.indexOf LockEvent.releaseShared <
        getLoopEvents.indexOf LockEvent.acquireBucket ∧
      deleteLoopEvents.indexOf LockEvent.releaseShared <
        deleteLoopEvents.indexOf LockEvent.acquireBucket) ∧
    (LockEvent.boundsRetryCheck ∈ putLoopEvents ∧
      LockEvent.boundsRetryCheck ∈ getLoopEvents ∧
      LockEvent.boundsRetryCheck ∈ deleteLoopEvents) ∧
    specLockOrder.indexOf LockEvent.releaseBucket <
      specLockOrder.indexOf LockEvent.releaseShared ∧
    LockEvent.boundsRetryCheck ∉ specLockOrder := by
  decide

/-- C4: Scenario A - constructing with initial bucket count 4 and putting
keys 0..9 with values "v0".."v9" gives Size 10, every Get succeeds with its
value, and the bucket count has reached 16 (doubled at least twice); in
general, a Put that inserts a new key doubles the bucket count exactly when
the incremented size exceeds 0.75 of the bucket count (rendered exactly as
`4 * (size+1) > 3 * bucketSize`). -/
theorem C4_scenarioA_and_threshold (fmtK : K → List Nat) :
    (Size scenarioA = 10 ∧ scenarioA.bucketSize = 16 ∧ 16 ≤ scenarioA.bucketSize ∧
      (∀ i : Nat, i < 10 → Get natFmt "" scenarioA i = ("v" ++ toString i, true))) ∧
    (∀ (ht : HashTable K V) (k : K) (v : V), WF fmtK ht → k ∉ allKeys ht →
      (Put fmtK ht k v).bucketSize =
        if 4 * (ht.size + 1) > 3 * (ht.bucketSize : Int)
        then 2 * ht.bucketSize else ht.bucketSize) := by
  constructor
  · exact ⟨by decide, by decide, by decide, by decide⟩
  · intro ht k v hwf habs
    exact Put_bucketSize_insert fmtK v (keyScan_eq_false_of_notMem fmtK hwf habs)

/-- Witness for C4: the threshold law applied to a concrete fresh table. -/
theorem C4_witness :
    (Put natFmt (New Nat String 4) 0 "x").bucketSize =
      (if 4 * ((New Nat String 4).size + 1) > 3 * (((New Nat String 4).bucketSize : Nat) : Int)
       then 2 * (New Nat String 4).bucketSize else (New Nat String 4).bucketSize) :=
  (C4_scenarioA_and_threshold natFmt).2 (New Nat String 4) 0 "x" (WF_New natFmt 4)
    (by decide)

/-- C5: a Put of a key already present replaces the stored value in place -
the size counter, the bucket count and the key layout of every bucket are
unchanged, no resize happens, the key now reads back the new value and all
other keys are untouched; Scenario B - Put("a",1); Put("a",2) leaves
Get("a") = (2, true) and Size = 1. -/
theorem C5_put_existing_updates_in_place (fmtK : K → List Nat) (z : V)
    (ht : HashTable K V) (k : K) (w : V) (v : V) (hwf : WF fmtK ht)
    (hpresent : lookupVal fmtK ht k = some w) :
    Size (Put fmtK ht k v) = Size ht ∧
    (Put fmtK ht k v).bucketSize = ht.bucketSize ∧
    (Put fmtK ht k v).buckets.map (fun b => b.map entry.key) =
      ht.buckets.map (fun b => b.map entry.key) ∧
    Get fmtK z (Put fmtK ht k v) k = (v, true) ∧
    (∀ k2 : K, k2 ≠ k → Get fmtK z (Put fmtK ht k v) k2 = Get fmtK z ht k2) ∧
    Get strFmt (0 : Int) scenarioB "a" = (2, true) ∧ Size scenarioB = 1 := by
  have hscan : keyScan k (ht.buckets.getD (hash fmtK ht k) []) = true := by
    rw [← lookupVal_isSome_eq_keyScan, hpresent]
    rfl
  refine ⟨?_, Put_bucketSize_update fmtK v hscan, ?_, ?_, ?_, by decide, by decide⟩
  · show (Put fmtK ht k v).size = ht.size
    rw [Put_size fmtK k v, if_pos hscan]
  · rw [Put_update_eq fmtK v hscan]
    show (modifyIdx (bucketReplace k v) (hash fmtK ht k) ht.buckets).map
      (fun b => b.map entry.key) = ht.buckets.map (fun b => b.map entry.key)
    exact map_modifyIdx_eq _ _ _ _ (fun b => map_key_bucketReplace k v b)
  · exact Get_eq_of_lookupVal_some fmtK z (lookupVal_Put_self fmtK hwf k v)
  · intro k2 hne
    rw [Get_eq_lookupVal, Get_eq_lookupVal, lookupVal_Put_ne fmtK hwf hne v]

/-- Witness for C5 on a concrete table holding key 7. -/
theorem C5_witness :
    Size (Put natFmt (Put natFmt (New Nat String 4) 7 "old") 7 "new")
      = Size (Put natFmt (New Nat String 4) 7 "old") ∧
    Get natFmt "" (Put natFmt (Put natFmt (New Nat String 4) 7 "old") 7 "new") 7
      = ("new", true) := by
  have h := C5_put_existing_updates_in_place natFmt ""
    (Put natFmt (New Nat String 4) 7 "old") 7 "old" "new"
    (WF_Put natFmt (WF_New natFmt 4) 7 "old") (by decide)
  exact ⟨h.1, h.2.2.2.1⟩

/-- C6: Delete of an absent key returns false and leaves the whole table -
size counter and every bucket - unchanged; Delete of a present key returns
true, removes exactly that entry and decrements the size counter; deleting
the same key twice in a row returns true then false. -/
theorem C6_delete_semantics (fmtK : K → List Nat) (ht : HashTable K V) (k : K)
    (hwf : WF fmtK ht) :
    (lookupVal fmtK ht k = none → Delete fmtK ht k = (ht, false)) ∧
    (∀ w : V, lookupVal fmtK ht k = some w →
      (Delete fmtK ht k).2 = true ∧
      Size (Delete fmtK ht k).1 = Size ht - 1 ∧
      lookupVal fmtK (Delete fmtK ht k).1 k = none ∧
      (∀ k2 : K, k2 ≠ k → lookupVal fmtK (Delete fmtK ht k).1 k2 = lookupVal fmtK ht k2)) ∧
    ((Delete fmtK ht k).2 = true → (Delete fmtK (Delete fmtK ht k).1 k).2 = false) := by
  refine ⟨?_, ?_, ?_⟩
  · intro habs
    apply Delete_not_found_eq fmtK
    rw [← lookupVal_isSome_eq_keyScan, habs]
    rfl
  · intro w hw
    have hscan : keyScan k (ht.buckets.getD (hash fmtK ht k) []) = true := by
      rw [← lookupVal_isSome_eq_keyScan, hw]
      rfl
    refine ⟨?_, ?_, lookupVal_Delete_self fmtK hwf k,
      fun k2 hne => lookupVal_Delete_ne fmtK hwf hne⟩
    · rw [Delete_snd fmtK ht k, hscan]
    · show (Delete fmtK ht k).1.size = ht.size - 1
      rw [Delete_size fmtK ht k, Delete_snd fmtK ht k, hscan]
      simp
  · intro hfirst
    have hgone := lookupVal_Delete_self fmtK hwf k
    rw [Delete_snd fmtK _ k, ← lookupVal_isSome_eq_keyScan, hgone]
    rfl

/-- Witness for C6: double delete on a concrete singleton table. -/
theorem C6_witness :
    (Delete natFmt (Put natFmt (New Nat String 4) 3 "x") 3).2 = true ∧
    (Delete natFmt
      (Delete natFmt (Put natFmt (New Nat String 4) 3 "x") 3).1 3).2 = false := by
  have h := C6_delete_semantics natFmt (Put natFmt (New Nat String 4) 3 "x") 3
    (WF_Put natFmt (WF_New natFmt 4) 3 "x")
  have h1 := (h.2.1 "x" (by decide)).1
  exact ⟨h1, h.2.2 h1⟩

/-- C7: the bucket count is a positive integer in every reachable state:
non-positive requested sizes fall back to the default 16, positive sizes
are used as given, each single operation either leaves the bucket count
unchanged or exactly doubles it, it never shrinks, and it stays at least 1
after any operation sequence. -/
theorem C7_bucket_count_invariant (fmtK : K → List Nat) :
    (∀ n : Int, n < 1 → (New K V n).bucketSize = 16) ∧
    (∀ n : Int, 1 ≤ n → ((New K V n).bucketSize : Int) = n) ∧
    (∀ (ht : HashTable K V) (op : Op K V), WF fmtK ht →
      (applyOp fmtK ht op).bucketSize = ht.bucketSize ∨
      (applyOp fmtK ht op).bucketSize = 2 * ht.bucketSize) ∧
    (∀ (ht : HashTable K V) (op : Op K V), WF fmtK ht →
      ht.bucketSize ≤ (applyOp fmtK ht op).bucketSize) ∧
    (∀ (ops : List (Op K V)) (n : Int), 1 ≤ (runOps fmtK ops (New K V n)).bucketSize) := by
  have hstep : ∀ (ht : HashTable K V) (op : Op K V), WF fmtK ht →
      (applyOp fmtK ht op).bucketSize = ht.bucketSize ∨
      (applyOp fmtK ht op).bucketSize = 2 * ht.bucketSize := by
    intro ht op hwf
    cases op with
    | put k v =>
      by_cases hscan : keyScan k (ht.buckets.getD (hash fmtK ht k) []) = true
      · left
        exact Put_bucketSize_update fmtK v hscan
      · rw [show applyOp fmtK ht (Op.put k v) = Put fmtK ht k v from rfl,
          Put_bucketSize_insert fmtK v (eq_false_of_ne_true hscan)]
        split
        · right
          rfl
        · left
          rfl
    | del k =>
      left
      exact Delete_bucketSize fmtK ht k
  refine ⟨?_, ?_, hstep, ?_, ?_⟩
  · intro n hn
    rw [New_bucketSize, if_pos hn]
  · intro n hn
    rw [New_bucketSize, if_neg (by omega)]
    exact Int.toNat_of_nonneg (by omega)
  · intro ht op hwf
    rcases hstep ht op hwf with h | h <;> omega
  · intro ops n
    exact (WF_runOps fmtK ops (WF_New fmtK n)).pos

/-- Witness for C7 on concrete constructions and one concrete operation. -/
theorem C7_witness :
    (New Nat Nat 0).bucketSize = 16 ∧ ((New Nat Nat 5).bucketSize : Int) = 5 ∧
    ((applyOp natFmt (New Nat Nat 4) (Op.put 0 7)).bucketSize = (New Nat Nat 4).bucketSize ∨
      (applyOp natFmt (New Nat Nat 4) (Op.put 0 7)).bucketSize
        = 2 * (New Nat Nat 4).bucketSize) ∧
    (New Nat Nat 4).bucketSize ≤ (applyOp natFmt (New Nat Nat 4) (Op.put 0 7)).bucketSize ∧
    1 ≤ (runOps natFmt [Op.put 0 7] (New Nat Nat 4)).bucketSize := by
  have h := C7_bucket_count_invariant (K := Nat) (V := Nat) natFmt
  exact ⟨h.1 0 (by decide), h.2.1 5 (by decide),
    h.2.2.1 (New Nat Nat 4) (Op.put 0 7) (WF_New natFmt 4),
    h.2.2.2.1 (New Nat Nat 4) (Op.put 0 7) (WF_New natFmt 4),
    h.2.2.2.2 [Op.put 0 7] 4⟩

/-- C8: the hash is a deterministic function of the key and the bucket
count, its result lies in `[0, bucketCount)` whenever the count is
positive, and in every reachable table state the computed index is within
the bounds of the bucket array. -/
theorem C8_hash_deterministic_in_range (fmtK : K → List Nat) :
    (∀ (n : Nat) (k : K), hashIndex fmtK n k = hashIndex fmtK n k) ∧
    (∀ (n : Nat) (k : K), 0 < n → hashIndex fmtK n k < n) ∧
    (∀ (ops : List (Op K V)) (n : Int) (k : K),
      hash fmtK (runOps fmtK ops (New K V n)) k <
        (runOps fmtK ops (New K V n)).buckets.length) := by
  refine ⟨fun n k => rfl, fun n k h => hashIndex_lt fmtK n k h, ?_⟩
  intro ops n k
  exact hash_lt fmtK (WF_runOps fmtK ops (WF_New fmtK n)) k

/-- Witness for C8 at a concrete bucket count and key. -/
theorem C8_witness : hashIndex natFmt 16 0 < 16 :=
  (C8_hash_deterministic_in_range (K := Nat) (V := Nat) natFmt).2.1 16 0 (by decide)

/-- C9: Get of a key not present returns the zero value of V paired with
found = false.  In this embedding `Get` is a pure function of the table -
the Go implementation takes only read locks and performs no writes - so
the frame part of the claim (size counter and buckets unchanged) is
expressed by `Get` returning a value without a successor state. -/
theorem C9_get_absent_returns_zero (fmtK : K → List Nat) (z : V)
    (ht : HashTable K V) (k : K) (hwf : WF fmtK ht) (habs : k ∉ allKeys ht) :
    Get fmtK z ht k = (z, false) :=
  Get_eq_of_lookupVal_none fmtK z ((lookupVal_eq_none_iff fmtK hwf k).2 habs)

/-- Witness for C9 on a concrete empty table. -/
theorem C9_witness : Get natFmt "" (New Nat String 4) 3 = ("", false) :=
  C9_get_absent_returns_zero natFmt "" (New Nat String 4) 3 (WF_New natFmt 4) (by decide)

/-- A formatting function under which the two distinct boolean keys have
the same textual representation (both format to the byte string "a"). -/
def collidingFmt : Bool → List Nat := fun _ => [97]

/-- C10: two distinct keys whose formatted strings coincide are kept as
separate entries: putting both (necessarily into the same bucket, since
their hashes agree) lets each read back its own value and counts both in
the size - update versus insert is decided by key equality, not by the
formatted hash string. -/
theorem C10_distinct_keys_same_format (fmtK : K → List Nat) (z : V)
    (ht : HashTable K V) (k1 k2 : K) (v1 v2 : V) (hwf : WF fmtK ht)
    (hne : k1 ≠ k2) (hfmt : fmtK k1 = fmtK k2)
    (h1 : k1 ∉ allKeys ht) (h2 : k2 ∉ allKeys ht) :
    hash fmtK ht k1 = hash fmtK ht k2 ∧
    Get fmtK z (Put fmtK (Put fmtK ht k1 v1) k2 v2) k1 = (v1, true) ∧
    Get fmtK z (Put fmtK (Put fmtK ht k1 v1) k2 v2) k2 = (v2, true) ∧
    Size (Put fmtK (Put fmtK ht k1 v1) k2 v2) = Size ht + 2 := by
  have hwf1 := WF_Put fmtK hwf k1 v1
  refine ⟨?_, ?_, ?_, ?_⟩
  · rw [hash, hash, hashIndex, hashIndex, hfmt]
  · rw [Get_eq_lookupVal, lookupVal_Put_ne fmtK hwf1 hne v2,
      lookupVal_Put_self fmtK hwf k1 v1]
    rfl
  · exact Get_eq_of_lookupVal_some fmtK z (lookupVal_Put_self fmtK hwf1 k2 v2)
  · have hs1 := keyScan_eq_false_of_notMem fmtK hwf h1
    have habs2 : lookupVal fmtK (Put fmtK ht k1 v1) k2 = none := by
      rw [lookupVal_Put_ne fmtK hwf (fun hc => hne hc.symm) v1]
      exact (lookupVal_eq_none_iff fmtK hwf k2).2 h2
    have hs2 : keyScan k2 ((Put fmtK ht k1 v1).buckets.getD
        (hash fmtK (Put fmtK ht k1 v1) k2) []) = false := by
      rw [← lookupVal_isSome_eq_keyScan, habs2]
      rfl
    show (Put fmtK (Put fmtK ht k1 v1) k2 v2).size = ht.size + 2
    rw [Put_size fmtK k2 v2, hs2]
    simp only [Bool.false_eq_true, if_false]
    rw [Put_size fmtK k1 v1, hs1]
    simp only [Bool.false_eq_true, if_false]
    ring

/-- Witness for C10: the two boolean keys both format to "a" yet are kept
as two entries with their own values. -/
theorem C10_witness :
    Get collidingFmt (0 : Int)
      (Put collidingFmt (Put collidingFmt (New Bool Int 4) false 5) true 6) false
      = (5, true) ∧
    Get collidingFmt (0 : Int)
      (Put collidingFmt (Put collidingFmt (New Bool Int 4) false 5) true 6) true
      = (6, true) ∧
    Size (Put collidingFmt (Put collidingFmt (New Bool Int 4) false 5) true 6)
      = Size (New Bool Int 4) + 2 := by
  have h := C10_distinct_keys_same_format collidingFmt (0 : Int) (New Bool Int 4)
    false true 5 6 (WF_New collidingFmt 4) (by decide) rfl (by decide) (by decide)
  exact ⟨h.2.1, h.2.2.1, h.2.2.2⟩

end hashtable
